import Mathlib

/-!
Verification of the in-memory harness wallet (package memwallet) against its
natural-language specification.

The Go source keeps the ledger in hash maps; here every Go map is embedded as
an association list together with lookup, insert and erase operations that
reproduce Go map semantics (assignment replaces, delete removes, lookup of a
missing key yields none).  Byte strings (scripts, script hashes) are lists of
naturals, heights are integers (int64), hash identities are naturals.
-/

/-- Go map lookup: first binding of the key, none when absent. -/
def alLookup {K V : Type} [DecidableEq K] : List (K × V) → K → Option V
  | [], _ => none
  | (k1, v1) :: t, k => if k = k1 then some v1 else alLookup t k

/-- Go map delete: remove every binding of the key. -/
def alErase {K V : Type} [DecidableEq K] : List (K × V) → K → List (K × V)
  | [], _ => []
  | (k1, v1) :: t, k => if k1 = k then alErase t k else (k1, v1) :: alErase t k

/-- Go map assignment: bind the key, replacing any previous binding. -/
def alInsert {K V : Type} [DecidableEq K] (m : List (K × V)) (k : K) (v : V) :
    List (K × V) :=
  (k, v) :: alErase m k

/-- A map whose keys are bound at most once. -/
def NodupKeys {K V : Type} (m : List (K × V)) : Prop :=
  (m.map Prod.fst).Nodup

/-- Output identity: the pair of transaction hash and output index. -/
abbrev OutPoint := Nat × Nat

/-- Field bytes.Contains of the Go standard library: the second byte string
occurs contiguously inside the first. -/
def bytesHasPrefix : List Nat → List Nat → Bool
  | _, [] => true
  | [], _ :: _ => false
  | a :: s, b :: t => a == b && bytesHasPrefix s t

/-- bytes.Contains: the needle occurs contiguously inside the haystack. -/
def bytesContains : List Nat → List Nat → Bool
  | [], sub => sub.isEmpty
  | a :: t, sub => bytesHasPrefix (a :: t) sub || bytesContains t sub

/-- An unspent output record tracked by the wallet (type utxo). -/
structure Utxo where
  value : Int
  keyIndex : Nat
  maturityHeight : Int
  pkScript : List Nat
  isLocked : Bool
deriving DecidableEq

/-- A transaction output (coinharness.TxOut): amount and script. -/
structure TxOut where
  amount : Int
  pkScript : List Nat
deriving DecidableEq

/-- A transaction input (coinharness.InputTx): the outpoint it spends. -/
structure InputTx where
  previousOutPoint : OutPoint
deriving DecidableEq

/-- A filtered transaction as consumed by the synchronizer.  The isCoinBase
field records the value of the external IsCoinBaseTx predicate on it. -/
structure MsgTx where
  txHash : Nat
  txOut : List TxOut
  txIn : List InputTx
  isCoinBase : Bool
deriving DecidableEq

/-- A chain update queued by IngestBlock: height plus filtered transactions. -/
structure ChainUpdate where
  blockHeight : Int
  filteredTxns : List MsgTx
deriving DecidableEq

/-- An undo entry of the reorg journal: outpoints created by a block and the
full prior records of outputs destroyed by it. -/
structure UndoEntry where
  utxosCreated : List OutPoint
  utxosDestroyed : List (OutPoint × Utxo)
deriving DecidableEq

/-- The ledger state of InMemoryWallet: next hd key index, current synced
height, the coinbase maturity window of the network, the address table
(key index to script hash of the address), the utxo set and the reorg
journal. -/
structure WalletState where
  hdIndex : Nat
  currentHeight : Int
  coinbaseMaturity : Int
  addrs : List (Nat × List Nat)
  utxos : List (OutPoint × Utxo)
  reorgJournal : List (Int × UndoEntry)
deriving DecidableEq

/-- Inner loop of evalOutputs over the address table: every owned address
whose script hash occurs in the output script stores a fresh utxo record at
the outpoint and appends the outpoint to the created list of the undo
entry. -/
def evalOutputsAddrs (curHeight cbMaturity : Int) (isCoinbase : Bool)
    (op : OutPoint) (out : TxOut) :
    List (Nat × List Nat) → List (OutPoint × Utxo) → List OutPoint →
    List (OutPoint × Utxo) × List OutPoint
  | [], utxos, created => (utxos, created)
  | (keyIndex, pkHash) :: rest, utxos, created =>
    if bytesContains out.pkScript pkHash then
      evalOutputsAddrs curHeight cbMaturity isCoinbase op out rest
        (alInsert utxos op
          ⟨out.amount, keyIndex,
            if isCoinbase then curHeight + cbMaturity else 0,
            out.pkScript, false⟩)
        (created ++ [op])
    else
      evalOutputsAddrs curHeight cbMaturity isCoinbase op out rest utxos created

/-- Outer loop of evalOutputs over the outputs of one transaction, carrying
the output index that forms the outpoint. -/
def evalOutputsGo (curHeight cbMaturity : Int) (isCoinbase : Bool)
    (txHash : Nat) (addrs : List (Nat × List Nat)) :
    Nat → List TxOut → List (OutPoint × Utxo) → List OutPoint →
    List (OutPoint × Utxo) × List OutPoint
  | _, [], utxos, created => (utxos, created)
  | i, out :: rest, utxos, created =>
    evalOutputsGo curHeight cbMaturity isCoinbase txHash addrs (i + 1) rest
      (evalOutputsAddrs curHeight cbMaturity isCoinbase (txHash, i) out addrs
        utxos created).1
      (evalOutputsAddrs curHeight cbMaturity isCoinbase (txHash, i) out addrs
        utxos created).2

/-- evalInputs: every input whose referenced outpoint exists in the ledger
moves that record into the destroyed map of the undo entry and deletes it
from the utxo set; inputs referencing unknown outpoints are skipped. -/
def evalInputsGo :
    List (OutPoint × Utxo) → List (OutPoint × Utxo) → List InputTx →
    List (OutPoint × Utxo) × List (OutPoint × Utxo)
  | utxos, destroyed, [] => (utxos, destroyed)
  | utxos, destroyed, txIn :: rest =>
    match alLookup utxos txIn.previousOutPoint with
    | none => evalInputsGo utxos destroyed rest
    | some oldUtxo =>
      evalInputsGo (alErase utxos txIn.previousOutPoint)
        (alInsert destroyed txIn.previousOutPoint oldUtxo) rest

/-- Processing of one transaction by the synchronizer: evalOutputs followed
by evalInputs, threading the utxo set, the created list and the destroyed
map of the undo entry under construction. -/
def applyTx (curHeight cbMaturity : Int) (addrs : List (Nat × List Nat))
    (acc : List (OutPoint × Utxo) × List OutPoint × List (OutPoint × Utxo))
    (tx : MsgTx) :
    List (OutPoint × Utxo) × List OutPoint × List (OutPoint × Utxo) :=
  ((evalInputsGo
      (evalOutputsGo curHeight cbMaturity tx.isCoinBase tx.txHash addrs 0
        tx.txOut acc.1 acc.2.1).1
      acc.2.2 tx.txIn).1,
   (evalOutputsGo curHeight cbMaturity tx.isCoinBase tx.txHash addrs 0
      tx.txOut acc.1 acc.2.1).2,
   (evalInputsGo
      (evalOutputsGo curHeight cbMaturity tx.isCoinBase tx.txHash addrs 0
        tx.txOut acc.1 acc.2.1).1
      acc.2.2 tx.txIn).2)

/-- The apply step of chainSyncer for one popped update: set the current
height to the update height, process every filtered transaction, then record
the undo entry in the reorg journal under the update height. -/
def applyUpdate (s : WalletState) (update : ChainUpdate) : WalletState :=
  { s with
    currentHeight := update.blockHeight,
    utxos :=
      (update.filteredTxns.foldl
        (applyTx update.blockHeight s.coinbaseMaturity s.addrs)
        (s.utxos, [], [])).1,
    reorgJournal :=
      alInsert s.reorgJournal update.blockHeight
        ⟨(update.filteredTxns.foldl
            (applyTx update.blockHeight s.coinbaseMaturity s.addrs)
            (s.utxos, [], [])).2.1,
          (update.filteredTxns.foldl
            (applyTx update.blockHeight s.coinbaseMaturity s.addrs)
            (s.utxos, [], [])).2.2⟩ }

/-- UnwindBlock for a given height.  The Go source reads the journal entry
with a plain map lookup and immediately dereferences it, so a missing entry
is a nil dereference, a fatal runtime fault; this is embedded as none.
Otherwise every created outpoint is deleted, every destroyed record is
reinserted, and the journal entry is removed.  The current height field is
not touched. -/
def unwindBlock (s : WalletState) (height : Int) : Option WalletState :=
  match alLookup s.reorgJournal height with
  | none => none
  | some undo =>
    some { s with
      utxos :=
        undo.utxosDestroyed.foldl (fun u kv => alInsert u kv.1 kv.2)
          (undo.utxosCreated.foldl (fun u op => alErase u op) s.utxos),
      reorgJournal := alErase s.reorgJournal height }

/-- IngestBlock appends the new chain update to the tail of the queue. -/
def IngestBlock (q : List ChainUpdate) (u : ChainUpdate) : List ChainUpdate :=
  q ++ [u]

/-- The drain loop of chainSyncer run over a queue: repeatedly pop the head
update, apply it, and record the current height the ledger holds after the
application.  Returns the final state and the observed height trace. -/
def chainSyncerRun (s : WalletState) :
    List ChainUpdate → WalletState × List Int
  | [] => (s, [])
  | u :: rest =>
    ((chainSyncerRun (applyUpdate s u) rest).1,
      (applyUpdate s u).currentHeight :: (chainSyncerRun (applyUpdate s u) rest).2)

/-- Modelled from the spec: the maturity test of the utxo type (method
isMature, defined outside the provided sources).  Per the spec a record is
excluded while the current height is below its maturity height and included
once the current height reaches it. -/
def isMature (u : Utxo) (height : Int) : Bool :=
  decide (u.maturityHeight ≤ height)

/-- A spendable output as reported by ListUnspent: the account name (always
empty) and the amount. -/
structure Unspent where
  account : String
  amount : Int
deriving DecidableEq

/-- Loop body of ListUnspent: skip immature or locked records, collect the
rest in iteration order. -/
def listUnspentGo (curHeight : Int) : List (OutPoint × Utxo) → List Unspent
  | [] => []
  | (_, u) :: rest =>
    if !isMature u curHeight || u.isLocked then listUnspentGo curHeight rest
    else ⟨"", u.value⟩ :: listUnspentGo curHeight rest

/-- ListUnspent: reports spendable records and leaves the state unchanged. -/
def ListUnspent (s : WalletState) : List Unspent × WalletState :=
  (listUnspentGo s.currentHeight s.utxos, s)

/-- Loop body of GetBalance: skip immature or locked records, total the
values of the rest. -/
def getBalanceGo (curHeight : Int) : List (OutPoint × Utxo) → Int
  | [] => 0
  | (_, u) :: rest =>
    if !isMature u curHeight || u.isLocked then getBalanceGo curHeight rest
    else u.value + getBalanceGo curHeight rest

/-- GetBalance: total spendable value, state unchanged. -/
def GetBalance (s : WalletState) : Int × WalletState :=
  (getBalanceGo s.currentHeight s.utxos, s)

/-- The records ListUnspent and GetBalance count: mature and not locked.
This characterization is only used to state theorems. -/
def listUnspentEntries (s : WalletState) : List (OutPoint × Utxo) :=
  s.utxos.filter (fun kv => isMature kv.2 s.currentHeight && !kv.2.isLocked)

/-- UnlockOutputs on one input: clear the locked flag of the referenced
record when it exists, skip otherwise. -/
def unlockOne (utxos : List (OutPoint × Utxo)) (op : OutPoint) :
    List (OutPoint × Utxo) :=
  match alLookup utxos op with
  | none => utxos
  | some u => alInsert utxos op { u with isLocked := false }

/-- UnlockOutputs: clear the locked flag of every referenced record. -/
def UnlockOutputs (s : WalletState) (inputs : List InputTx) : WalletState :=
  { s with
    utxos := inputs.foldl (fun u i => unlockOne u i.previousOutPoint) s.utxos }

/-- External collaborators of newAddress: child key derivation from the hd
root, private key extraction, address derivation, and the transaction filter
registration of the node connection.  Each may fail. -/
structure KeyEnv where
  child : Nat → Except String Nat
  ecPrivKey : Nat → Except String Nat
  keyToAddr : Nat → Except String (List Nat)
  loadTxFilter : List Nat → Except String Unit

/-- newAddress: derive a key and address at the current hd index, register
the address with the node filter, record it in the address table and advance
the index (a uint32, so the increment wraps at 2 to the 32).  Every failing
step returns the error before any state change. -/
def newAddress (env : KeyEnv) (s : WalletState) :
    Except String (List Nat) × WalletState :=
  match env.child s.hdIndex with
  | .error e => (.error e, s)
  | .ok childKey =>
    match env.ecPrivKey childKey with
    | .error e => (.error e, s)
    | .ok privKey =>
      match env.keyToAddr privKey with
      | .error e => (.error e, s)
      | .ok addr =>
        match env.loadTxFilter addr with
        | .error e => (.error e, s)
        | .ok _ =>
          (.ok addr,
            { s with
              addrs := alInsert s.addrs s.hdIndex addr,
              hdIndex := (s.hdIndex + 1) % 4294967296 })

/-- A sequence of NewAddress calls; stops at the first failure. -/
def runNewAddressN (env : KeyEnv) (s : WalletState) :
    Nat → Except String WalletState
  | 0 => .ok s
  | n + 1 =>
    match newAddress env s with
    | (.ok _, s2) => runNewAddressN env s2 n
    | (.error e, _) => .error e

/-- Number of owned addresses whose script hash occurs in a script. -/
def matchCount (addrs : List (Nat × List Nat)) (pkScript : List Nat) : Nat :=
  addrs.countP (fun kv => bytesContains pkScript kv.2)

/-- The outpoints evalOutputs appends to the created list for the outputs of
one transaction, with multiplicity: one copy per matching owned address. -/
def createdOpsOuts (txHash : Nat) (addrs : List (Nat × List Nat)) :
    Nat → List TxOut → List OutPoint
  | _, [] => []
  | i, out :: rest =>
    List.replicate (matchCount addrs out.pkScript) (txHash, i) ++
      createdOpsOuts txHash addrs (i + 1) rest

/-- All outpoints an update creates (with multiplicity). -/
def createdOps (addrs : List (Nat × List Nat)) (update : ChainUpdate) :
    List OutPoint :=
  update.filteredTxns.flatMap
    (fun tx => createdOpsOuts tx.txHash addrs 0 tx.txOut)

/-- All outpoints referenced by the inputs of an update. -/
def spentOps (update : ChainUpdate) : List OutPoint :=
  update.filteredTxns.flatMap
    (fun tx => tx.txIn.map (fun i => i.previousOutPoint))

/-- Well-formedness of an update relative to a state, making precise the
applicability the spec assumes for the inverse law: the outpoints the update
creates are fresh, no input of the update references an outpoint the update
itself creates, and the update height has no journal entry yet. -/
def wellFormedAt (s : WalletState) (update : ChainUpdate) : Prop :=
  (∀ op ∈ createdOps s.addrs update, alLookup s.utxos op = none) ∧
  (∀ op ∈ spentOps update, op ∉ createdOps s.addrs update) ∧
  alLookup s.reorgJournal update.blockHeight = none

/-- Invariant tying the in-progress apply accumulator (utxo set, created
list, destroyed map) to the utxo set before the apply step. -/
def applyInv (u0 : List (OutPoint × Utxo)) (CO : List OutPoint)
    (st : List (OutPoint × Utxo) × List OutPoint × List (OutPoint × Utxo)) :
    Prop :=
  (∀ op, op ∉ st.2.1 → alLookup st.2.2 op = none →
    alLookup st.1 op = alLookup u0 op) ∧
  (∀ op ∈ st.2.1, op ∈ CO) ∧
  (∀ op v, alLookup st.2.2 op = some v →
    alLookup u0 op = some v ∧ op ∉ CO) ∧
  (∀ op, (alLookup st.2.2 op).isSome = true → alLookup st.1 op = none) ∧
  NodupKeys st.2.2

/-- Error text used by the concrete failing environment below. -/
def errMsg : String := "e"

/-- A concrete ledger state at height 5 with empty tables. -/
def cexState : WalletState := ⟨0, 5, 16, [], [], []⟩

/-- A concrete empty update at height 7. -/
def cexUpdate : ChainUpdate := ⟨7, []⟩

/-- A concrete state owning address index 0 and one spendable utxo. -/
def wfState : WalletState :=
  ⟨0, 4, 16, [(0, [7])], [((1, 0), ⟨50, 0, 0, [7, 7], false⟩)], []⟩

/-- A concrete update at height 5 paying the owned address and spending the
existing utxo. -/
def wfUpdate : ChainUpdate :=
  ⟨5, [⟨2, [⟨25, [3, 7, 9]⟩], [⟨(1, 0)⟩], false⟩]⟩

/-- A concrete state holding one coinbase utxo that matures at height 12
while the ledger is at height 10. -/
def gateState : WalletState :=
  ⟨0, 10, 16, [(0, [7])], [((1, 0), ⟨50, 0, 12, [7], false⟩)], []⟩

/-- The record stored in gateState. -/
def gateUtxo : Utxo := ⟨50, 0, 12, [7], false⟩

/-- A concrete state holding one mature but locked utxo. -/
def lockState : WalletState :=
  ⟨0, 10, 16, [(0, [7])], [((1, 0), ⟨50, 0, 3, [7], true⟩)], []⟩

/-- The record stored in lockState. -/
def lockUtxo : Utxo := ⟨50, 0, 3, [7], true⟩

/-- A key environment whose collaborators always succeed. -/
def env0 : KeyEnv :=
  ⟨fun i => .ok i, fun k => .ok k, fun k => .ok [k], fun _ => .ok ()⟩

/-- A key environment whose child key derivation always fails. -/
def envErr : KeyEnv :=
  ⟨fun _ => .error errMsg, fun k => .ok k, fun k => .ok [k], fun _ => .ok ()⟩

/-- A fresh wallet state: next index 0, no addresses. -/
def startState : WalletState := ⟨0, 0, 16, [], [], []⟩

/-- The state reached from startState by two successful address issues. -/
def afterTwoState : WalletState := ⟨2, 0, 16, [(1, [1]), (0, [0])], [], []⟩

/-- A concrete utxo set tracking only the outpoint (1, 0). -/
def skipUtxos : List (OutPoint × Utxo) := [((1, 0), ⟨9, 0, 0, [7], false⟩)]

/-- Two owned addresses whose script hashes both occur in matchOut. -/
def matchAddrs : List (Nat × List Nat) := [(0, [7]), (1, [9])]

/-- An output whose script contains the script hashes of both owned
addresses of matchAddrs. -/
def matchOut : TxOut := ⟨25, [7, 9]⟩

/-!
Helper lemmas about the map operations.
-/

theorem alLookup_erase {K V : Type} [DecidableEq K] (m : List (K × V))
    (k k1 : K) :
    alLookup (alErase m k) k1 = if k1 = k then none else alLookup m k1 := by
  induction m with
  | nil => simp [alLookup, alErase]
  | cons kv t ih =>
    obtain ⟨k2, v2⟩ := kv
    by_cases h2 : k2 = k
    · subst h2
      by_cases h1 : k1 = k2
      · subst h1
        simp [alErase, alLookup, ih]
      · simp [alErase, alLookup, h1, ih]
    · by_cases h3 : k1 = k2
      · subst h3
        have h4 : ¬k1 = k := fun hh => h2 (hh ▸ rfl)
        simp [alErase, h2, alLookup, h4]
      · simp [alErase, h2, alLookup, h3, ih]

theorem alLookup_insert {K V : Type} [DecidableEq K] (m : List (K × V))
    (k k1 : K) (v : V) :
    alLookup (alInsert m k v) k1 = if k1 = k then some v else alLookup m k1 := by
  by_cases h : k1 = k <;>
    simp [alInsert, alLookup, h, alLookup_erase]

theorem alLookup_mem {K V : Type} [DecidableEq K] (m : List (K × V))
    (k : K) (v : V) (h : alLookup m k = some v) : (k, v) ∈ m := by
  induction m with
  | nil => simp [alLookup] at h
  | cons kv t ih =>
    obtain ⟨k1, v1⟩ := kv
    simp only [alLookup] at h
    by_cases h1 : k = k1
    · rw [if_pos h1] at h
      subst h1
      cases h
      exact List.mem_cons_self _ _
    · rw [if_neg h1] at h
      exact List.mem_cons_of_mem _ (ih h)

theorem alLookup_eq_none {K V : Type} [DecidableEq K] (m : List (K × V))
    (k : K) (h : k ∉ m.map Prod.fst) : alLookup m k = none := by
  induction m with
  | nil => rfl
  | cons kv t ih =>
    obtain ⟨k1, v1⟩ := kv
    simp only [List.map_cons, List.mem_cons] at h
    push_neg at h
    simp [alLookup, h.1, ih h.2]

theorem keys_erase_subset {K V : Type} [DecidableEq K] (m : List (K × V))
    (k k1 : K) (h : k1 ∈ (alErase m k).map Prod.fst) :
    k1 ∈ m.map Prod.fst ∧ k1 ≠ k := by
  induction m with
  | nil => simp [alErase] at h
  | cons kv t ih =>
    obtain ⟨k2, v2⟩ := kv
    by_cases h2 : k2 = k
    · subst h2
      rw [alErase, if_pos rfl] at h
      have := ih h
      exact ⟨List.mem_cons_of_mem _ this.1, this.2⟩
    · rw [alErase, if_neg h2] at h
      simp only [List.map_cons, List.mem_cons] at h ⊢
      rcases h with h | h
      · exact ⟨Or.inl h, h ▸ h2⟩
      · have := ih h
        exact ⟨Or.inr this.1, this.2⟩

theorem nodupKeys_erase {K V : Type} [DecidableEq K] (m : List (K × V))
    (k : K) (h : NodupKeys m) : NodupKeys (alErase m k) := by
  induction m with
  | nil => exact h
  | cons kv t ih =>
    obtain ⟨k2, v2⟩ := kv
    simp only [NodupKeys, List.map_cons, List.nodup_cons] at h
    by_cases h2 : k2 = k
    · rw [alErase, if_pos h2]
      exact ih h.2
    · rw [alErase, if_neg h2]
      simp only [NodupKeys, List.map_cons, List.nodup_cons]
      exact ⟨fun hm => h.1 (keys_erase_subset t k k2 hm).1, ih h.2⟩

theorem nodupKeys_insert {K V : Type} [DecidableEq K] (m : List (K × V))
    (k : K) (v : V) (h : NodupKeys m) : NodupKeys (alInsert m k v) := by
  simp only [alInsert, NodupKeys, List.map_cons, List.nodup_cons]
  exact ⟨fun hm => (keys_erase_subset m k k hm).2 rfl, nodupKeys_erase m k h⟩

theorem foldl_erase_lookup {V : Type} (L : List OutPoint)
    (u : List (OutPoint × V)) (k : OutPoint) :
    alLookup (L.foldl (fun acc op => alErase acc op) u) k =
      if k ∈ L then none else alLookup u k := by
  induction L generalizing u with
  | nil => simp
  | cons op rest ih =>
    simp only [List.foldl_cons, ih, List.mem_cons]
    by_cases h1 : k ∈ rest
    · simp [h1]
    · by_cases h2 : k = op <;> simp [h1, h2, alLookup_erase]

theorem foldl_insert_lookup {V : Type} (d : List (OutPoint × V)) :
    ∀ (u : List (OutPoint × V)) (k : OutPoint), NodupKeys d →
    alLookup (d.foldl (fun acc kv => alInsert acc kv.1 kv.2) u) k =
      match alLookup d k with
      | some v => some v
      | none => alLookup u k := by
  induction d with
  | nil => intro u k _; simp [alLookup]
  | cons kv t ih =>
    intro u k hnd
    obtain ⟨k1, v1⟩ := kv
    simp only [NodupKeys, List.map_cons, List.nodup_cons] at hnd
    simp only [List.foldl_cons]
    rw [ih _ k hnd.2]
    by_cases h1 : k = k1
    · subst h1
      rw [alLookup_eq_none t k hnd.1]
      simp [alLookup, alLookup_insert]
    · simp only [alLookup, if_neg h1]
      cases h2 : alLookup t k
      · simp [alLookup_insert, alInsert, alLookup, alLookup_erase, h1]
      · rfl

theorem count_keys_insert {V : Type} (m : List (OutPoint × V)) (op : OutPoint)
    (v : V) : ((alInsert m op v).map Prod.fst).count op = 1 := by
  have hnot : op ∉ (alErase m op).map Prod.fst := by
    intro hmem
    exact (keys_erase_subset m op op hmem).2 rfl
  simp [alInsert, List.count_cons, List.count_eq_zero.mpr hnot]

theorem eoa_created (ch cbM : Int) (cb : Bool) (op : OutPoint) (out : TxOut) :
    ∀ (addrs : List (Nat × List Nat)) (utxos : List (OutPoint × Utxo))
      (created : List OutPoint),
    (evalOutputsAddrs ch cbM cb op out addrs utxos created).2 =
      created ++ List.replicate (matchCount addrs out.pkScript) op := by
  intro addrs
  induction addrs with
  | nil => intro utxos created; simp [evalOutputsAddrs, matchCount]
  | cons kv rest ih =>
    intro utxos created
    obtain ⟨ki, pk⟩ := kv
    by_cases h : bytesContains out.pkScript pk
    · rw [evalOutputsAddrs, if_pos h, ih]
      simp [matchCount, List.countP_cons, h, List.replicate_succ]
    · rw [evalOutputsAddrs, if_neg h, ih]
      simp [matchCount, List.countP_cons, h]

theorem eoa_lookup_ne (ch cbM : Int) (cb : Bool) (op : OutPoint) (out : TxOut) :
    ∀ (addrs : List (Nat × List Nat)) (utxos : List (OutPoint × Utxo))
      (created : List OutPoint) (k : OutPoint), k ≠ op →
    alLookup (evalOutputsAddrs ch cbM cb op out addrs utxos created).1 k =
      alLookup utxos k := by
  intro addrs
  induction addrs with
  | nil => intro utxos created k _; rfl
  | cons kv rest ih =>
    intro utxos created k hk
    obtain ⟨ki, pk⟩ := kv
    by_cases h : bytesContains out.pkScript pk
    · rw [evalOutputsAddrs, if_pos h, ih _ _ k hk, alLookup_insert,
        if_neg hk]
    · rw [evalOutputsAddrs, if_neg h, ih _ _ k hk]

theorem eoa_nomatch (ch cbM : Int) (cb : Bool) (op : OutPoint) (out : TxOut) :
    ∀ (addrs : List (Nat × List Nat)) (utxos : List (OutPoint × Utxo))
      (created : List OutPoint), matchCount addrs out.pkScript = 0 →
    evalOutputsAddrs ch cbM cb op out addrs utxos created = (utxos, created) := by
  intro addrs
  induction addrs with
  | nil => intro utxos created _; rfl
  | cons kv rest ih =>
    intro utxos created h0
    obtain ⟨ki, pk⟩ := kv
    simp only [matchCount, List.countP_cons] at h0
    by_cases h : bytesContains out.pkScript pk
    · simp [h] at h0
    · simp only [h, if_false, Nat.add_zero] at h0
      rw [evalOutputsAddrs, if_neg h, ih _ _ h0]

theorem eoa_lookup_mem (ch cbM : Int) (cb : Bool) (op : OutPoint) (out : TxOut) :
    ∀ (addrs : List (Nat × List Nat)) (utxos : List (OutPoint × Utxo))
      (created : List OutPoint), 0 < matchCount addrs out.pkScript →
    ∃ u, alLookup (evalOutputsAddrs ch cbM cb op out addrs utxos created).1 op
        = some u ∧
      u.keyIndex ∈
        (addrs.filter (fun kv => bytesContains out.pkScript kv.2)).map
          Prod.fst := by
  intro addrs
  induction addrs with
  | nil => intro utxos created h0; simp [matchCount] at h0
  | cons kv rest ih =>
    intro utxos created h0
    obtain ⟨ki, pk⟩ := kv
    by_cases h : bytesContains out.pkScript pk
    · rw [evalOutputsAddrs, if_pos h]
      by_cases h1 : 0 < matchCount rest out.pkScript
      · obtain ⟨u, hu, hmem⟩ := ih _ (created ++ [op]) h1
        refine ⟨u, hu, ?_⟩
        simp only [List.filter_cons, h, if_true, List.map_cons]
        exact List.mem_cons_of_mem _ hmem
      · have h2 : matchCount rest out.pkScript = 0 := Nat.eq_zero_of_not_pos h1
        rw [eoa_nomatch ch cbM cb op out rest _ _ h2]
        refine ⟨_, by rw [alLookup_insert, if_pos rfl], ?_⟩
        simp only [List.filter_cons, h, if_true, List.map_cons]
        exact List.mem_cons_self _ _
    · rw [evalOutputsAddrs, if_neg h]
      simp only [matchCount, List.countP_cons, h, if_false, Nat.add_zero] at h0
      obtain ⟨u, hu, hmem⟩ := ih utxos created h0
      refine ⟨u, hu, ?_⟩
      simp only [List.filter_cons, h, if_false]
      exact hmem

theorem eoa_maturity (ch cbM : Int) (cb : Bool) (op : OutPoint) (out : TxOut) :
    ∀ (addrs : List (Nat × List Nat)) (utxos : List (OutPoint × Utxo))
      (created : List OutPoint) (k : OutPoint) (u : Utxo),
    alLookup (evalOutputsAddrs ch cbM cb op out addrs utxos created).1 k
      = some u →
    alLookup utxos k = some u ∨
      u.maturityHeight = (if cb then ch + cbM else 0) := by
  intro addrs
  induction addrs with
  | nil => intro utxos created k u h; exact Or.inl h
  | cons kv rest ih =>
    intro utxos created k u hu
    obtain ⟨ki, pk⟩ := kv
    by_cases h : bytesContains out.pkScript pk
    · rw [evalOutputsAddrs, if_pos h] at hu
      rcases ih _ _ k u hu with h1 | h1
      · rw [alLookup_insert] at h1
        by_cases h2 : k = op
        · rw [if_pos h2] at h1
          cases h1
          exact Or.inr rfl
        · rw [if_neg h2] at h1
          exact Or.inl h1
      · exact Or.inr h1
    · rw [evalOutputsAddrs, if_neg h] at hu
      exact ih _ _ k u hu

theorem eoa_count_preserve (ch cbM : Int) (cb : Bool) (op : OutPoint)
    (out : TxOut) :
    ∀ (addrs : List (Nat × List Nat)) (utxos : List (OutPoint × Utxo))
      (created : List OutPoint),
    ((utxos.map Prod.fst).count op = 1) →
    (((evalOutputsAddrs ch cbM cb op out addrs utxos created).1.map
        Prod.fst).count op = 1) := by
  intro addrs
  induction addrs with
  | nil => intro utxos created h; exact h
  | cons kv rest ih =>
    intro utxos created h
    obtain ⟨ki, pk⟩ := kv
    by_cases hc : bytesContains out.pkScript pk
    · rw [evalOutputsAddrs, if_pos hc]
      exact ih _ _ (count_keys_insert _ _ _)
    · rw [evalOutputsAddrs, if_neg hc]
      exact ih _ _ h

theorem eoa_count (ch cbM : Int) (cb : Bool) (op : OutPoint) (out : TxOut) :
    ∀ (addrs : List (Nat × List Nat)) (utxos : List (OutPoint × Utxo))
      (created : List OutPoint), 0 < matchCount addrs out.pkScript →
    (((evalOutputsAddrs ch cbM cb op out addrs utxos created).1.map
        Prod.fst).count op = 1) := by
  intro addrs
  induction addrs with
  | nil => intro utxos created h0; simp [matchCount] at h0
  | cons kv rest ih =>
    intro utxos created h0
    obtain ⟨ki, pk⟩ := kv
    by_cases hc : bytesContains out.pkScript pk
    · rw [evalOutputsAddrs, if_pos hc]
      exact eoa_count_preserve ch cbM cb op out rest _ _
        (count_keys_insert _ _ _)
    · rw [evalOutputsAddrs, if_neg hc]
      simp only [matchCount, List.countP_cons, hc, if_false, Nat.add_zero] at h0
      exact ih _ _ h0

theorem eog_created (ch cbM : Int) (cb : Bool) (txH : Nat)
    (addrs : List (Nat × List Nat)) :
    ∀ (outs : List TxOut) (i : Nat) (utxos : List (OutPoint × Utxo))
      (created : List OutPoint),
    (evalOutputsGo ch cbM cb txH addrs i outs utxos created).2 =
      created ++ createdOpsOuts txH addrs i outs := by
  intro outs
  induction outs with
  | nil => intro i utxos created; simp [evalOutputsGo, createdOpsOuts]
  | cons out rest ih =>
    intro i utxos created
    rw [evalOutputsGo, ih, eoa_created, createdOpsOuts, List.append_assoc]

theorem eog_lookup_not_created (ch cbM : Int) (cb : Bool) (txH : Nat)
    (addrs : List (Nat × List Nat)) :
    ∀ (outs : List TxOut) (i : Nat) (utxos : List (OutPoint × Utxo))
      (created : List OutPoint) (k : OutPoint),
    k ∉ createdOpsOuts txH addrs i outs →
    alLookup (evalOutputsGo ch cbM cb txH addrs i outs utxos created).1 k =
      alLookup utxos k := by
  intro outs
  induction outs with
  | nil => intro i utxos created k _; rfl
  | cons out rest ih =>
    intro i utxos created k hk
    rw [createdOpsOuts] at hk
    simp only [List.mem_append] at hk
    push_neg at hk
    by_cases h2 : k = (txH, i)
    · subst h2
      have h0 : matchCount addrs out.pkScript = 0 := by
        by_contra h3
        exact hk.1 (List.mem_replicate.mpr ⟨h3, rfl⟩)
      rw [evalOutputsGo, eoa_nomatch ch cbM cb _ out addrs utxos created h0]
      exact ih (i + 1) utxos created _ hk.2
    · rw [evalOutputsGo, ih (i + 1) _ _ k hk.2,
        eoa_lookup_ne ch cbM cb _ out addrs utxos created k h2]

theorem eog_maturity (ch cbM : Int) (cb : Bool) (txH : Nat)
    (addrs : List (Nat × List Nat)) :
    ∀ (outs : List TxOut) (i : Nat) (utxos : List (OutPoint × Utxo))
      (created : List OutPoint) (k : OutPoint) (u : Utxo),
    alLookup (evalOutputsGo ch cbM cb txH addrs i outs utxos created).1 k
      = some u →
    alLookup utxos k = some u ∨
      u.maturityHeight = (if cb then ch + cbM else 0) := by
  intro outs
  induction outs with
  | nil => intro i utxos created k u h; exact Or.inl h
  | cons out rest ih =>
    intro i utxos created k u hu
    rw [evalOutputsGo] at hu
    rcases ih (i + 1) _ _ k u hu with h1 | h1
    · exact eoa_maturity ch cbM cb _ out addrs utxos created k u h1
    · exact Or.inr h1

theorem eig_utxos :
    ∀ (ins : List InputTx) (u d : List (OutPoint × Utxo)) (k : OutPoint),
    alLookup (evalInputsGo u d ins).1 k =
      if k ∈ ins.map (fun i => i.previousOutPoint) then none
      else alLookup u k := by
  intro ins
  induction ins with
  | nil => intro u d k; simp [evalInputsGo]
  | cons i0 rest ih =>
    intro u d k
    simp only [List.map_cons, List.mem_cons]
    cases h : alLookup u i0.previousOutPoint with
    | none =>
      rw [evalInputsGo, h, ih]
      by_cases h1 : k = i0.previousOutPoint
      · subst h1
        by_cases h2 : i0.previousOutPoint ∈ rest.map (fun i => i.previousOutPoint) <;>
          simp [h2, h]
      · by_cases h2 : k ∈ rest.map (fun i => i.previousOutPoint) <;>
          simp [h1, h2]
    | some old =>
      rw [evalInputsGo, h, ih]
      by_cases h1 : k = i0.previousOutPoint
      · subst h1
        by_cases h2 : i0.previousOutPoint ∈ rest.map (fun i => i.previousOutPoint) <;>
          simp [h2, alLookup_erase]
      · by_cases h2 : k ∈ rest.map (fun i => i.previousOutPoint) <;>
          simp [h1, h2, alLookup_erase]

theorem eig_destroyed :
    ∀ (ins : List InputTx) (u d : List (OutPoint × Utxo)) (k : OutPoint),
    alLookup (evalInputsGo u d ins).2 k =
      if k ∈ ins.map (fun i => i.previousOutPoint) then
        (match alLookup u k with
          | some v => some v
          | none => alLookup d k)
      else alLookup d k := by
  intro ins
  induction ins with
  | nil => intro u d k; simp [evalInputsGo]
  | cons i0 rest ih =>
    intro u d k
    simp only [List.map_cons, List.mem_cons]
    cases h : alLookup u i0.previousOutPoint with
    | none =>
      rw [evalInputsGo, h, ih]
      by_cases h1 : k = i0.previousOutPoint
      · subst h1
        rw [h]
        by_cases h2 : i0.previousOutPoint ∈ rest.map (fun i => i.previousOutPoint) <;>
          simp [h2, h]
      · by_cases h2 : k ∈ rest.map (fun i => i.previousOutPoint) <;>
          simp [h1, h2]
    | some old =>
      rw [evalInputsGo, h, ih]
      by_cases h1 : k = i0.previousOutPoint
      · subst h1
        rw [h]
        by_cases h2 : i0.previousOutPoint ∈ rest.map (fun i => i.previousOutPoint) <;>
          simp [h2, h, alLookup_erase, alLookup_insert]
      · by_cases h2 : k ∈ rest.map (fun i => i.previousOutPoint) <;>
          simp [h1, h2, alLookup_erase, alLookup_insert]

theorem eig_nodup :
    ∀ (ins : List InputTx) (u d : List (OutPoint × Utxo)), NodupKeys d →
    NodupKeys (evalInputsGo u d ins).2 := by
  intro ins
  induction ins with
  | nil => intro u d h; exact h
  | cons i0 rest ih =>
    intro u d h
    cases h1 : alLookup u i0.previousOutPoint with
    | none => rw [evalInputsGo, h1]; exact ih _ _ h
    | some old => rw [evalInputsGo, h1]; exact ih _ _ (nodupKeys_insert _ _ _ h)

theorem applyTx_inv_step (h cbM : Int) (addrs : List (Nat × List Nat))
    (CO SP : List OutPoint) (u0 : List (OutPoint × Utxo))
    (H2 : ∀ op ∈ SP, op ∉ CO)
    (tx : MsgTx)
    (hco : ∀ op ∈ createdOpsOuts tx.txHash addrs 0 tx.txOut, op ∈ CO)
    (hsp : ∀ inp ∈ tx.txIn, inp.previousOutPoint ∈ SP)
    (us : List (OutPoint × Utxo)) (cr : List OutPoint)
    (d : List (OutPoint × Utxo))
    (hinv : applyInv u0 CO (us, cr, d)) :
    applyInv u0 CO (applyTx h cbM addrs (us, cr, d) tx) := by
  obtain ⟨inv1, inv2, inv3, inv4, inv5⟩ := hinv
  have hspm : ∀ op ∈ tx.txIn.map (fun i => i.previousOutPoint), op ∈ SP := by
    intro op hop
    obtain ⟨inp, hinp, rfl⟩ := List.mem_map.mp hop
    exact hsp inp hinp
  have hcr1 :
      (evalOutputsGo h cbM tx.isCoinBase tx.txHash addrs 0 tx.txOut us cr).2 =
        cr ++ createdOpsOuts tx.txHash addrs 0 tx.txOut :=
    eog_created h cbM tx.isCoinBase tx.txHash addrs tx.txOut 0 us cr
  have hu1k : ∀ k, k ∉ createdOpsOuts tx.txHash addrs 0 tx.txOut →
      alLookup
        (evalOutputsGo h cbM tx.isCoinBase tx.txHash addrs 0 tx.txOut us
          cr).1 k = alLookup us k :=
    fun k hk =>
      eog_lookup_not_created h cbM tx.isCoinBase tx.txHash addrs tx.txOut 0
        us cr k hk
  refine ⟨?_, ?_, ?_, ?_, ?_⟩
  · -- component 1: untouched keys keep their original binding
    intro op hop1 hop2
    simp only [applyTx] at hop1 hop2 ⊢
    rw [hcr1] at hop1
    simp only [List.mem_append] at hop1
    push_neg at hop1
    rw [eig_destroyed] at hop2
    rw [eig_utxos]
    by_cases hin : op ∈ tx.txIn.map (fun i => i.previousOutPoint)
    · rw [if_pos hin] at hop2 ⊢
      cases hc : alLookup
          (evalOutputsGo h cbM tx.isCoinBase tx.txHash addrs 0 tx.txOut us
            cr).1 op with
      | some w => rw [hc] at hop2; exact absurd hop2 (by simp)
      | none =>
        rw [hc] at hop2
        rw [hu1k op hop1.2] at hc
        rw [← inv1 op hop1.1 hop2, hc]
    · rw [if_neg hin] at hop2 ⊢
      rw [hu1k op hop1.2]
      exact inv1 op hop1.1 hop2
  · -- component 2: created outpoints are created by the update
    intro op hop
    simp only [applyTx] at hop
    rw [hcr1] at hop
    rcases List.mem_append.mp hop with hmem | hmem
    · exact inv2 op hmem
    · exact hco op hmem
  · -- component 3: destroyed records carry their pre-apply binding
    intro op v hop
    simp only [applyTx] at hop
    rw [eig_destroyed] at hop
    by_cases hin : op ∈ tx.txIn.map (fun i => i.previousOutPoint)
    · rw [if_pos hin] at hop
      have hnotCO : op ∉ CO := H2 op (hspm op hin)
      cases hc : alLookup
          (evalOutputsGo h cbM tx.isCoinBase tx.txHash addrs 0 tx.txOut us
            cr).1 op with
      | some w =>
        rw [hc] at hop
        cases hop
        have hnotCtx : op ∉ createdOpsOuts tx.txHash addrs 0 tx.txOut :=
          fun hm => hnotCO (hco op hm)
        rw [hu1k op hnotCtx] at hc
        have hd : alLookup d op = none := by
          cases hd2 : alLookup d op with
          | none => rfl
          | some w2 =>
            have := inv4 op (by rw [hd2]; rfl)
            rw [this] at hc
            cases hc
        have hcr : op ∉ cr := fun hm => hnotCO (inv2 op hm)
        rw [← inv1 op hcr hd]
        exact ⟨hc, hnotCO⟩
      | none =>
        rw [hc] at hop
        exact inv3 op v hop
    · rw [if_neg hin] at hop
      exact inv3 op v hop
  · -- component 4: destroyed keys are absent from the utxo set
    intro op hop
    simp only [applyTx] at hop ⊢
    rw [eig_destroyed] at hop
    rw [eig_utxos]
    by_cases hin : op ∈ tx.txIn.map (fun i => i.previousOutPoint)
    · rw [if_pos hin]
    · rw [if_neg hin] at hop
      rw [if_neg hin]
      cases hd2 : alLookup d op with
      | none => rw [hd2] at hop; cases hop
      | some w =>
        have hus : alLookup us op = none := inv4 op (by rw [hd2]; rfl)
        have hnotCO : op ∉ CO := (inv3 op w hd2).2
        have hnotCtx : op ∉ createdOpsOuts tx.txHash addrs 0 tx.txOut :=
          fun hm => hnotCO (hco op hm)
        rw [hu1k op hnotCtx, hus]
  · -- component 5: the destroyed map keeps unique keys
    simp only [applyTx]
    exact eig_nodup tx.txIn _ d inv5

theorem applyTxs_inv (h cbM : Int) (addrs : List (Nat × List Nat))
    (CO SP : List OutPoint) (u0 : List (OutPoint × Utxo))
    (H2 : ∀ op ∈ SP, op ∉ CO) :
    ∀ (txs : List MsgTx)
      (st : List (OutPoint × Utxo) × List OutPoint × List (OutPoint × Utxo)),
    (∀ tx ∈ txs, (∀ op ∈ createdOpsOuts tx.txHash addrs 0 tx.txOut, op ∈ CO) ∧
      (∀ inp ∈ tx.txIn, inp.previousOutPoint ∈ SP)) →
    applyInv u0 CO st →
    applyInv u0 CO (txs.foldl (applyTx h cbM addrs) st) := by
  intro txs
  induction txs with
  | nil => intro st _ hinv; exact hinv
  | cons tx rest ih =>
    intro st hside hinv
    obtain ⟨us, cr, d⟩ := st
    rw [List.foldl_cons]
    exact ih _ (fun t ht => hside t (List.mem_cons_of_mem _ ht))
      (applyTx_inv_step h cbM addrs CO SP u0 H2 tx
        (hside tx (List.mem_cons_self _ _)).1
        (hside tx (List.mem_cons_self _ _)).2 us cr d hinv)

/-- Claim C1 (amended): for a well-formed update applicable at S, applying
the update and then unwinding its height restores the Output Record set and
leaves no residual Undo Entry for that height, and the address table, hd
index and maturity window are untouched; the current synced height, however,
is NOT restored: it remains the update height, because UnwindBlock never
writes the height field. -/
theorem apply_unwind_eq (s : WalletState) (U : ChainUpdate)
    (hwf : wellFormedAt s U) :
    ∃ s2, unwindBlock (applyUpdate s U) U.blockHeight = some s2 ∧
      (∀ op, alLookup s2.utxos op = alLookup s.utxos op) ∧
      (∀ hh, alLookup s2.reorgJournal hh = alLookup s.reorgJournal hh) ∧
      s2.currentHeight = U.blockHeight ∧
      s2.hdIndex = s.hdIndex ∧ s2.addrs = s.addrs ∧
      s2.coinbaseMaturity = s.coinbaseMaturity := by
  obtain ⟨H1, H2, H3⟩ := hwf
  have hside : ∀ tx ∈ U.filteredTxns,
      (∀ op ∈ createdOpsOuts tx.txHash s.addrs 0 tx.txOut,
        op ∈ createdOps s.addrs U) ∧
      (∀ inp ∈ tx.txIn, inp.previousOutPoint ∈ spentOps U) := by
    intro tx htx
    constructor
    · intro op hop
      simp only [createdOps]
      exact List.mem_flatMap.mpr ⟨tx, htx, hop⟩
    · intro inp hinp
      simp only [spentOps]
      exact List.mem_flatMap.mpr ⟨tx, htx, List.mem_map_of_mem _ hinp⟩
  have hinv0 : applyInv s.utxos (createdOps s.addrs U) (s.utxos, [], []) := by
    refine ⟨fun op _ _ => rfl, ?_, ?_, ?_, ?_⟩
    · intro op hop; simp at hop
    · intro op v hop; simp [alLookup] at hop
    · intro op hop; simp [alLookup] at hop
    · simp [NodupKeys]
  have hinv := applyTxs_inv U.blockHeight s.coinbaseMaturity s.addrs
    (createdOps s.addrs U) (spentOps U) s.utxos H2 U.filteredTxns
    (s.utxos, [], []) hside hinv0
  obtain ⟨us, cr, d, hr⟩ :
      ∃ us cr d, U.filteredTxns.foldl
        (applyTx U.blockHeight s.coinbaseMaturity s.addrs)
        (s.utxos, [], []) = (us, cr, d) := ⟨_, _, _, rfl⟩
  rw [hr] at hinv
  simp only [applyInv] at hinv
  obtain ⟨inv1, inv2, inv3, inv4, inv5⟩ := hinv
  have hAu : (applyUpdate s U).utxos = us := by
    simp only [applyUpdate, hr]
  have hAj : (applyUpdate s U).reorgJournal =
      alInsert s.reorgJournal U.blockHeight ⟨cr, d⟩ := by
    simp only [applyUpdate, hr]
  have hj : alLookup (applyUpdate s U).reorgJournal U.blockHeight
      = some ⟨cr, d⟩ := by
    rw [hAj, alLookup_insert, if_pos rfl]
  refine ⟨{ applyUpdate s U with
      utxos := (UndoEntry.mk cr d).utxosDestroyed.foldl
        (fun u kv => alInsert u kv.1 kv.2)
        ((UndoEntry.mk cr d).utxosCreated.foldl (fun u op => alErase u op)
          (applyUpdate s U).utxos),
      reorgJournal := alErase (applyUpdate s U).reorgJournal U.blockHeight },
    ?_, ?_, ?_, rfl, rfl, rfl, rfl⟩
  · unfold unwindBlock
    rw [hj]
  · intro op
    show alLookup (d.foldl (fun u kv => alInsert u kv.1 kv.2)
      (cr.foldl (fun u op => alErase u op) (applyUpdate s U).utxos)) op
      = alLookup s.utxos op
    rw [foldl_insert_lookup d _ op inv5]
    cases hd : alLookup d op with
    | some v => exact ((inv3 op v hd).1).symm
    | none =>
      rw [foldl_erase_lookup, hAu]
      by_cases hcr : op ∈ cr
      · rw [if_pos hcr, H1 op (inv2 op hcr)]
      · rw [if_neg hcr]
        exact inv1 op hcr hd
  · intro hh
    show alLookup (alErase (applyUpdate s U).reorgJournal U.blockHeight) hh
      = alLookup s.reorgJournal hh
    rw [hAj, alLookup_erase]
    by_cases hhh : hh = U.blockHeight
    · rw [if_pos hhh, hhh, H3]
    · rw [if_neg hhh, alLookup_insert, if_neg hhh]

theorem applyUpdate_currentHeight (s : WalletState) (U : ChainUpdate) :
    (applyUpdate s U).currentHeight = U.blockHeight := rfl

theorem foldl_ingest :
    ∀ (us q : List ChainUpdate), us.foldl IngestBlock q = q ++ us := by
  intro us
  induction us with
  | nil => intro q; simp
  | cons u rest ih =>
    intro q
    rw [List.foldl_cons, ih, IngestBlock, List.append_assoc]
    rfl

theorem chainSyncerRun_trace :
    ∀ (q : List ChainUpdate) (s : WalletState),
    (chainSyncerRun s q).2 = q.map ChainUpdate.blockHeight := by
  intro q
  induction q with
  | nil => intro s; rfl
  | cons u rest ih =>
    intro s
    rw [chainSyncerRun, List.map_cons, applyUpdate_currentHeight, ih]

theorem listUnspentGo_eq (h : Int) :
    ∀ (l : List (OutPoint × Utxo)),
    listUnspentGo h l =
      (l.filter (fun kv => isMature kv.2 h && !kv.2.isLocked)).map
        (fun kv => (⟨"", kv.2.value⟩ : Unspent)) := by
  intro l
  induction l with
  | nil => rfl
  | cons kv t ih =>
    obtain ⟨op, u⟩ := kv
    cases hm : isMature u h <;> cases hl : u.isLocked <;>
      simp [listUnspentGo, List.filter_cons, hm, hl, ih]

theorem getBalanceGo_eq (h : Int) :
    ∀ (l : List (OutPoint × Utxo)),
    getBalanceGo h l =
      ((l.filter (fun kv => isMature kv.2 h && !kv.2.isLocked)).map
        (fun kv => kv.2.value)).sum := by
  intro l
  induction l with
  | nil => rfl
  | cons kv t ih =>
    obtain ⟨op, u⟩ := kv
    cases hm : isMature u h <;> cases hl : u.isLocked <;>
      simp [getBalanceGo, List.filter_cons, hm, hl, ih]

theorem newAddress_ok (env : KeyEnv) (s : WalletState) (a : List Nat)
    (s2 : WalletState) (h : newAddress env s = (Except.ok a, s2)) :
    s2 = { s with
      addrs := alInsert s.addrs s.hdIndex a,
      hdIndex := (s.hdIndex + 1) % 4294967296 } := by
  unfold newAddress at h
  repeat' split at h
  any_goals (injection h with h1 h2; exact Except.noConfusion h1)
  injection h with h1 h2
  injection h1 with h1
  subst h1
  exact h2.symm

theorem newAddress_ok_lookup (env : KeyEnv) (s : WalletState) (a : List Nat)
    (s2 : WalletState) (h : newAddress env s = (Except.ok a, s2)) :
    alLookup s2.addrs s.hdIndex = some a ∧
    s2.hdIndex = (s.hdIndex + 1) % 4294967296 ∧
    (∀ i, i ≠ s.hdIndex → alLookup s2.addrs i = alLookup s.addrs i) := by
  rw [newAddress_ok env s a s2 h]
  refine ⟨?_, rfl, ?_⟩
  · show alLookup (alInsert s.addrs s.hdIndex a) s.hdIndex = some a
    rw [alLookup_insert, if_pos rfl]
  · intro i hi
    show alLookup (alInsert s.addrs s.hdIndex a) i = alLookup s.addrs i
    rw [alLookup_insert, if_neg hi]

theorem runNewAddressN_ok (env : KeyEnv) :
    ∀ (n i0 : Nat) (s s2 : WalletState), s.hdIndex = i0 % 4294967296 →
    (∀ i, (alLookup s.addrs i).isSome = true ↔ i < i0) →
    i0 + n ≤ 4294967296 → runNewAddressN env s n = Except.ok s2 →
    s2.hdIndex = (i0 + n) % 4294967296 ∧
    (∀ i, (alLookup s2.addrs i).isSome = true ↔ i < i0 + n) := by
  intro n
  induction n with
  | zero =>
    intro i0 s s2 hidx hden _ hrun
    injection hrun with hrun
    subst hrun
    exact ⟨by rw [Nat.add_zero, hidx], by simpa using hden⟩
  | succ n ih =>
    intro i0 s s2 hidx hden hb hrun
    have hi0 : i0 < 4294967296 := by omega
    have hidx1 : s.hdIndex = i0 := by rw [hidx, Nat.mod_eq_of_lt hi0]
    obtain ⟨⟨r, s1⟩, hna⟩ :
        ∃ p, newAddress env s = p := ⟨_, rfl⟩
    simp only [runNewAddressN, hna] at hrun
    cases r with
    | error e => exact Except.noConfusion hrun
    | ok a =>
      have hs1 := newAddress_ok env s a s1 hna
      have hidx2 : s1.hdIndex = (i0 + 1) % 4294967296 := by
        rw [hs1]
        show (s.hdIndex + 1) % 4294967296 = _
        rw [hidx1]
      have hden2 : ∀ i, (alLookup s1.addrs i).isSome = true ↔ i < i0 + 1 := by
        intro i
        rw [hs1]
        show (alLookup (alInsert s.addrs s.hdIndex a) i).isSome = true ↔ _
        rw [alLookup_insert, hidx1]
        by_cases hi : i = i0
        · subst hi
          simp
        · rw [if_neg hi, hden i]
          omega
      have hb2 : (i0 + 1) + n ≤ 4294967296 := by omega
      have hres := ih (i0 + 1) s1 s2 hidx2 hden2 hb2 hrun
      have harith : i0 + 1 + n = i0 + (n + 1) := by omega
      rw [harith] at hres
      exact hres

/-- Claim C1, counterexample: a well-formed empty update applied at height 5
and unwound does not return the original state, since the current height
stays at the update height 7. -/
theorem apply_unwind_cex :
    wellFormedAt cexState cexUpdate ∧
    unwindBlock (applyUpdate cexState cexUpdate) cexUpdate.blockHeight ≠
      some cexState := by
  constructor
  · exact ⟨by decide, by decide, by decide⟩
  · decide

/-- Witness for claim C1: the amended inverse law evaluated on a concrete
state and a concrete update that pays an owned address and spends a tracked
output. -/
theorem apply_unwind_eq_w :
    ∃ s2, unwindBlock (applyUpdate wfState wfUpdate) wfUpdate.blockHeight =
        some s2 ∧
      (∀ op, alLookup s2.utxos op = alLookup wfState.utxos op) ∧
      (∀ hh, alLookup s2.reorgJournal hh = alLookup wfState.reorgJournal hh) ∧
      s2.currentHeight = wfUpdate.blockHeight ∧
      s2.hdIndex = wfState.hdIndex ∧ s2.addrs = wfState.addrs ∧
      s2.coinbaseMaturity = wfState.coinbaseMaturity :=
  apply_unwind_eq wfState wfUpdate ⟨by decide, by decide, by decide⟩

/-- Claim C2: unwinding a height that has no journal entry is a fatal fault
(the nil journal entry is dereferenced), never a silent no-op. -/
theorem unwind_missing_fatal (s : WalletState) (height : Int)
    (h : alLookup s.reorgJournal height = none) :
    unwindBlock s height = none := by
  unfold unwindBlock
  rw [h]

/-- Witness for claim C2: unwinding height 3 of a state with an empty
journal is the fatal case. -/
theorem unwind_missing_fatal_w : unwindBlock cexState 3 = none :=
  unwind_missing_fatal cexState 3 (by decide)

/-- Claim C3: updates enqueued by IngestBlock are applied strictly in
enqueue order: the ledger height trace of the synchronizer drain equals the
height sequence of the enqueued updates. -/
theorem fifo_ordering (s : WalletState) (us : List ChainUpdate) :
    (chainSyncerRun s (us.foldl IngestBlock [])).2 =
      us.map ChainUpdate.blockHeight := by
  rw [foldl_ingest us [], List.nil_append, chainSyncerRun_trace]

theorem eoa_lookup_val (ch cbM : Int) (cb : Bool) (op : OutPoint)
    (out : TxOut) :
    ∀ (addrs : List (Nat × List Nat)) (utxos : List (OutPoint × Utxo))
      (created : List OutPoint), 0 < matchCount addrs out.pkScript →
    ∃ ki, alLookup (evalOutputsAddrs ch cbM cb op out addrs utxos created).1 op
      = some ⟨out.amount, ki, if cb then ch + cbM else 0, out.pkScript,
          false⟩ := by
  intro addrs
  induction addrs with
  | nil => intro utxos created h0; simp [matchCount] at h0
  | cons kv rest ih =>
    intro utxos created h0
    obtain ⟨ki, pk⟩ := kv
    by_cases h : bytesContains out.pkScript pk
    · rw [evalOutputsAddrs, if_pos h]
      by_cases h1 : 0 < matchCount rest out.pkScript
      · exact ih _ (created ++ [op]) h1
      · have h2 : matchCount rest out.pkScript = 0 := Nat.eq_zero_of_not_pos h1
        rw [eoa_nomatch ch cbM cb op out rest _ _ h2]
        exact ⟨ki, by rw [alLookup_insert, if_pos rfl]⟩
    · rw [evalOutputsAddrs, if_neg h]
      simp only [matchCount, List.countP_cons, h, if_false, Nat.add_zero] at h0
      exact ih utxos created h0

theorem eog_created_maturity (ch cbM : Int) (cb : Bool) (txH : Nat)
    (addrs : List (Nat × List Nat)) :
    ∀ (outs : List TxOut) (i : Nat) (utxos : List (OutPoint × Utxo))
      (created : List OutPoint) (k : OutPoint) (w : Utxo),
    k ∈ createdOpsOuts txH addrs i outs →
    alLookup (evalOutputsGo ch cbM cb txH addrs i outs utxos created).1 k
      = some w →
    w.maturityHeight = (if cb then ch + cbM else 0) := by
  intro outs
  induction outs with
  | nil => intro i utxos created k w hk _; simp [createdOpsOuts] at hk
  | cons out rest ih =>
    intro i utxos created k w hk hw
    rw [evalOutputsGo] at hw
    by_cases hrest : k ∈ createdOpsOuts txH addrs (i + 1) rest
    · exact ih (i + 1) _ _ k w hrest hw
    · rw [createdOpsOuts] at hk
      rcases List.mem_append.mp hk with hrep | hr
      · obtain ⟨hcnt, hkeq⟩ := List.mem_replicate.mp hrep
        subst hkeq
        rw [eog_lookup_not_created ch cbM cb txH addrs rest (i + 1) _ _ _
          hrest] at hw
        obtain ⟨ki2, hval⟩ := eoa_lookup_val ch cbM cb (txH, i) out addrs
          utxos created (Nat.pos_of_ne_zero hcnt)
        rw [hval] at hw
        injection hw with hw
        rw [← hw]
      · exact absurd hr hrest

theorem applyTxs_maturity (h cbM : Int) (addrs : List (Nat × List Nat)) :
    ∀ (txs : List MsgTx)
      (st : List (OutPoint × Utxo) × List OutPoint × List (OutPoint × Utxo))
      (k : OutPoint) (w : Utxo),
    alLookup (txs.foldl (applyTx h cbM addrs) st).1 k = some w →
    alLookup st.1 k = some w ∨
      ∃ tx ∈ txs, k ∈ createdOpsOuts tx.txHash addrs 0 tx.txOut ∧
        w.maturityHeight = (if tx.isCoinBase then h + cbM else 0) := by
  intro txs
  induction txs with
  | nil => intro st k w hw; exact Or.inl hw
  | cons tx rest ih =>
    intro st k w hw
    rw [List.foldl_cons] at hw
    rcases ih (applyTx h cbM addrs st tx) k w hw with h1 | ⟨tx2, htx2, hk2, hm2⟩
    · simp only [applyTx] at h1
      rw [eig_utxos] at h1
      by_cases hin : k ∈ tx.txIn.map (fun i => i.previousOutPoint)
      · rw [if_pos hin] at h1
        exact absurd h1 (by simp)
      · rw [if_neg hin] at h1
        by_cases hcr : k ∈ createdOpsOuts tx.txHash addrs 0 tx.txOut
        · exact Or.inr ⟨tx, List.mem_cons_self _ _, hcr,
            eog_created_maturity h cbM tx.isCoinBase tx.txHash addrs tx.txOut
              0 st.1 st.2.1 k w hcr h1⟩
        · rw [eog_lookup_not_created h cbM tx.isCoinBase tx.txHash addrs
            tx.txOut 0 st.1 st.2.1 k hcr] at h1
          exact Or.inl h1
    · exact Or.inr ⟨tx2, List.mem_cons_of_mem _ htx2, hk2, hm2⟩

/-- Claim C4, counterexample: a coinbase-derived record (maturity height 3,
nonzero, so coinbase-constrained) held by a ledger at height 10 satisfies
current height at or above its maturity height, yet because its locked flag
is set it appears in no ListUnspent result and contributes nothing to the
balance, against the claim that it is included whenever current height
reaches the maturity height. -/
theorem maturity_gating_cex :
    lockUtxo.maturityHeight ≤ lockState.currentHeight ∧
    0 < lockUtxo.maturityHeight ∧
    alLookup lockState.utxos (1, 0) = some lockUtxo ∧
    (ListUnspent lockState).1 = [] ∧
    (GetBalance lockState).1 = 0 ∧
    lockUtxo.value = 50 := by
  decide

/-- Claim C4 (amended): a record is excluded from listing and balance while
current height is below its maturity height and, provided its locked flag
is clear, included once the height reaches it; listing and balance are
characterized over the same unchanged state; and for every update and every
record stored after applying it, the record either keeps its pre-apply
binding or was created by one of the transactions of the update, carrying
maturity height equal to the update height plus the coinbase maturity
window when that transaction is coinbase and 0 otherwise. -/
theorem maturity_gating (s : WalletState) (op : OutPoint) (u : Utxo)
    (hu : alLookup s.utxos op = some u) :
    (s.currentHeight < u.maturityHeight → (op, u) ∉ listUnspentEntries s) ∧
    (u.maturityHeight ≤ s.currentHeight → u.isLocked = false →
      (op, u) ∈ listUnspentEntries s) ∧
    (ListUnspent s).1 =
      (listUnspentEntries s).map (fun kv => (⟨"", kv.2.value⟩ : Unspent)) ∧
    (GetBalance s).1 =
      ((listUnspentEntries s).map (fun kv => kv.2.value)).sum ∧
    (ListUnspent s).2 = s ∧ (GetBalance s).2 = s ∧
    (∀ (s3 : WalletState) (U : ChainUpdate) (k : OutPoint) (w : Utxo),
      alLookup (applyUpdate s3 U).utxos k = some w →
      alLookup s3.utxos k = some w ∨
        ∃ tx ∈ U.filteredTxns,
          k ∈ createdOpsOuts tx.txHash s3.addrs 0 tx.txOut ∧
          w.maturityHeight =
            (if tx.isCoinBase then U.blockHeight + s3.coinbaseMaturity
              else 0)) := by
  refine ⟨?_, ?_, listUnspentGo_eq s.currentHeight s.utxos,
    getBalanceGo_eq s.currentHeight s.utxos, rfl, rfl, ?_⟩
  · intro hlt hmem
    have h2 := (List.mem_filter.mp hmem).2
    simp only [isMature, Bool.and_eq_true, decide_eq_true_eq] at h2
    omega
  · intro hle hlock
    refine List.mem_filter.mpr ⟨alLookup_mem s.utxos op u hu, ?_⟩
    simp [isMature, hle, hlock]
  · intro s3 U k w hw
    have hutx : (applyUpdate s3 U).utxos =
        (U.filteredTxns.foldl
          (applyTx U.blockHeight s3.coinbaseMaturity s3.addrs)
          (s3.utxos, [], [])).1 := rfl
    rw [hutx] at hw
    exact applyTxs_maturity U.blockHeight s3.coinbaseMaturity s3.addrs
      U.filteredTxns (s3.utxos, [], []) k w hw

/-- Witness for claim C4: the gating conjunction evaluated on a state
holding one coinbase record that matures at height 12 while the ledger is at
height 10. -/
theorem maturity_gating_w :
    (gateState.currentHeight < gateUtxo.maturityHeight →
      ((1, 0), gateUtxo) ∉ listUnspentEntries gateState) ∧
    (gateUtxo.maturityHeight ≤ gateState.currentHeight →
      gateUtxo.isLocked = false →
      ((1, 0), gateUtxo) ∈ listUnspentEntries gateState) ∧
    (ListUnspent gateState).1 =
      (listUnspentEntries gateState).map
        (fun kv => (⟨"", kv.2.value⟩ : Unspent)) ∧
    (GetBalance gateState).1 =
      ((listUnspentEntries gateState).map (fun kv => kv.2.value)).sum ∧
    (ListUnspent gateState).2 = gateState ∧
    (GetBalance gateState).2 = gateState ∧
    (∀ (s3 : WalletState) (U : ChainUpdate) (k : OutPoint) (w : Utxo),
      alLookup (applyUpdate s3 U).utxos k = some w →
      alLookup s3.utxos k = some w ∨
        ∃ tx ∈ U.filteredTxns,
          k ∈ createdOpsOuts tx.txHash s3.addrs 0 tx.txOut ∧
          w.maturityHeight =
            (if tx.isCoinBase then U.blockHeight + s3.coinbaseMaturity
              else 0)) :=
  maturity_gating gateState (1, 0) gateUtxo (by decide)

/-- Claim C5: a locked record is never listed and never counted by the
balance; after UnlockOutputs for its outpoint the record reappears with the
lock cleared, everything else unchanged, and it is listed again provided it
is mature. -/
theorem lock_exclusion (s : WalletState) (op : OutPoint) (u : Utxo)
    (hu : alLookup s.utxos op = some u) (hl : u.isLocked = true) :
    (op, u) ∉ listUnspentEntries s ∧
    (∀ s3 : WalletState, (ListUnspent s3).1 =
      (listUnspentEntries s3).map (fun kv => (⟨"", kv.2.value⟩ : Unspent))) ∧
    (∀ s3 : WalletState, (GetBalance s3).1 =
      ((listUnspentEntries s3).map (fun kv => kv.2.value)).sum) ∧
    alLookup (UnlockOutputs s [⟨op⟩]).utxos op =
      some { u with isLocked := false } ∧
    (∀ k, k ≠ op → alLookup (UnlockOutputs s [⟨op⟩]).utxos k =
      alLookup s.utxos k) ∧
    (UnlockOutputs s [⟨op⟩]).currentHeight = s.currentHeight ∧
    (isMature u s.currentHeight = true →
      (op, { u with isLocked := false }) ∈
        listUnspentEntries (UnlockOutputs s [⟨op⟩])) := by
  have hunlock : (UnlockOutputs s [⟨op⟩]).utxos =
      alInsert s.utxos op { u with isLocked := false } := by
    show unlockOne s.utxos op = _
    unfold unlockOne
    rw [hu]
  refine ⟨?_, fun s3 => listUnspentGo_eq s3.currentHeight s3.utxos,
    fun s3 => getBalanceGo_eq s3.currentHeight s3.utxos, ?_, ?_, rfl, ?_⟩
  · intro hmem
    have h2 := (List.mem_filter.mp hmem).2
    simp [hl] at h2
  · rw [hunlock, alLookup_insert, if_pos rfl]
  · intro k hk
    rw [hunlock, alLookup_insert, if_neg hk]
  · intro hmat
    refine List.mem_filter.mpr ⟨?_, ?_⟩
    · rw [hunlock]
      exact List.mem_cons_self _ _
    · simpa [isMature] using hmat

/-- Witness for claim C5: the lock exclusion conjunction evaluated on a
state holding one mature but locked record. -/
theorem lock_exclusion_w :
    ((1, 0), lockUtxo) ∉ listUnspentEntries lockState ∧
    (∀ s3 : WalletState, (ListUnspent s3).1 =
      (listUnspentEntries s3).map (fun kv => (⟨"", kv.2.value⟩ : Unspent))) ∧
    (∀ s3 : WalletState, (GetBalance s3).1 =
      ((listUnspentEntries s3).map (fun kv => kv.2.value)).sum) ∧
    alLookup (UnlockOutputs lockState [⟨(1, 0)⟩]).utxos (1, 0) =
      some { lockUtxo with isLocked := false } ∧
    (∀ k, k ≠ (1, 0) → alLookup (UnlockOutputs lockState [⟨(1, 0)⟩]).utxos k =
      alLookup lockState.utxos k) ∧
    (UnlockOutputs lockState [⟨(1, 0)⟩]).currentHeight =
      lockState.currentHeight ∧
    (isMature lockUtxo lockState.currentHeight = true →
      ((1, 0), { lockUtxo with isLocked := false }) ∈
        listUnspentEntries (UnlockOutputs lockState [⟨(1, 0)⟩])) :=
  lock_exclusion lockState (1, 0) lockUtxo (by decide) (by decide)

/-- Claim C6: the apply step sets the current height to the update height
unconditionally, with no relation to the previous height required, and the
update is accepted (its undo entry is recorded). -/
theorem height_unconditional (s : WalletState) (U : ChainUpdate) :
    (applyUpdate s U).currentHeight = U.blockHeight ∧
    (alLookup (applyUpdate s U).reorgJournal U.blockHeight).isSome = true := by
  refine ⟨rfl, ?_⟩
  show (alLookup (alInsert s.reorgJournal U.blockHeight _)
    U.blockHeight).isSome = true
  rw [alLookup_insert, if_pos rfl]
  rfl

/-- Claim C7: a successful issue registers the address at the current next
index and advances the index by one, and a sequence of n successful issues
from a fresh wallet assigns exactly the dense indices 0 to n-1, none reused
and none skipped. -/
theorem index_allocation :
    (∀ (env : KeyEnv) (s : WalletState) (a : List Nat) (s2 : WalletState),
      newAddress env s = (Except.ok a, s2) →
      alLookup s2.addrs s.hdIndex = some a ∧
      s2.hdIndex = (s.hdIndex + 1) % 4294967296 ∧
      (∀ i, i ≠ s.hdIndex → alLookup s2.addrs i = alLookup s.addrs i)) ∧
    (∀ (env : KeyEnv) (n : Nat) (s s2 : WalletState), s.hdIndex = 0 →
      s.addrs = [] → n ≤ 4294967296 →
      runNewAddressN env s n = Except.ok s2 →
      s2.hdIndex = n % 4294967296 ∧
      (∀ i, (alLookup s2.addrs i).isSome = true ↔ i < n)) := by
  constructor
  · intro env s a s2 h
    exact newAddress_ok_lookup env s a s2 h
  · intro env n s s2 h0 haddr hb hrun
    have hres := runNewAddressN_ok env n 0 s s2 (by rw [h0, Nat.zero_mod])
      (by intro i; rw [haddr]; simp [alLookup]) (by omega) hrun
    simpa using hres

/-- Witness for claim C7: two successful issues from the fresh state reach
index 2 with address indices 0 and 1 assigned. -/
theorem index_allocation_w :
    afterTwoState.hdIndex = 2 % 4294967296 ∧
    ((alLookup afterTwoState.addrs 1).isSome = true ↔ 1 < 2) :=
  ⟨(index_allocation.2 env0 2 startState afterTwoState rfl rfl (by omega)
      rfl).1,
   (index_allocation.2 env0 2 startState afterTwoState rfl rfl (by omega)
      rfl).2 1⟩

/-- Claim C8: an input whose referenced outpoint is not tracked is skipped:
processing continues with the utxo set and the destroyed map unchanged, and
processing only that input is the identity. -/
theorem unknown_input_skip (utxos destroyed : List (OutPoint × Utxo))
    (txIn : InputTx) (rest : List InputTx)
    (h : alLookup utxos txIn.previousOutPoint = none) :
    evalInputsGo utxos destroyed (txIn :: rest) =
      evalInputsGo utxos destroyed rest ∧
    evalInputsGo utxos destroyed [txIn] = (utxos, destroyed) := by
  constructor
  · simp only [evalInputsGo, h]
  · simp only [evalInputsGo, h]

/-- Witness for claim C8: the skip evaluated on a set tracking only the
outpoint (1, 0), fed an input referencing the unknown outpoint (2, 0). -/
theorem unknown_input_skip_w :
    evalInputsGo skipUtxos [] [⟨(2, 0)⟩, ⟨(1, 0)⟩] =
      evalInputsGo skipUtxos [] [⟨(1, 0)⟩] ∧
    evalInputsGo skipUtxos [] [⟨(2, 0)⟩] = (skipUtxos, []) :=
  unknown_input_skip skipUtxos [] ⟨(2, 0)⟩ [⟨(1, 0)⟩] (by decide)

/-- Claim C9: when any step of newAddress fails, the wallet state is
returned unchanged: no address table entry is added and the next index is
not advanced, so a retry uses the same index. -/
theorem newAddress_error_atomic (env : KeyEnv) (s : WalletState) (e : String)
    (h : (newAddress env s).1 = Except.error e) :
    (newAddress env s).2 = s ∧ (newAddress env s).2.hdIndex = s.hdIndex ∧
    (newAddress env s).2.addrs = s.addrs := by
  have hstate : (newAddress env s).2 = s := by
    cases hc1 : env.child s.hdIndex with
    | error e1 => simp [newAddress, hc1]
    | ok ck =>
      cases hc2 : env.ecPrivKey ck with
      | error e1 => simp [newAddress, hc1, hc2]
      | ok pk =>
        cases hc3 : env.keyToAddr pk with
        | error e1 => simp [newAddress, hc1, hc2, hc3]
        | ok addr =>
          cases hc4 : env.loadTxFilter addr with
          | error e1 => simp [newAddress, hc1, hc2, hc3, hc4]
          | ok uu => simp [newAddress, hc1, hc2, hc3, hc4] at h
  exact ⟨hstate, by rw [hstate], by rw [hstate]⟩

/-- Witness for claim C9: an environment whose child derivation fails
leaves the fresh state untouched. -/
theorem newAddress_error_atomic_w :
    (newAddress envErr startState).2 = startState ∧
    (newAddress envErr startState).2.hdIndex = startState.hdIndex ∧
    (newAddress envErr startState).2.addrs = startState.addrs :=
  newAddress_error_atomic envErr startState errMsg rfl

/-- Claim C10: when the script of one output contains the script hashes of
k greater than 1 owned addresses, the created list of the undo entry gains
the outpoint k times, while the utxo set stores exactly one record at that
outpoint whose owning key index is one of the k matching indices. -/
theorem multi_address_match (ch cbM : Int) (cb : Bool) (op : OutPoint)
    (out : TxOut) (addrs : List (Nat × List Nat))
    (utxos : List (OutPoint × Utxo)) (created : List OutPoint)
    (hk : 1 < matchCount addrs out.pkScript) :
    (evalOutputsAddrs ch cbM cb op out addrs utxos created).2 =
      created ++ List.replicate (matchCount addrs out.pkScript) op ∧
    (∃ u, alLookup
        (evalOutputsAddrs ch cbM cb op out addrs utxos created).1 op
        = some u ∧
      u.keyIndex ∈
        (addrs.filter (fun kv => bytesContains out.pkScript kv.2)).map
          Prod.fst) ∧
    (((evalOutputsAddrs ch cbM cb op out addrs utxos created).1.map
        Prod.fst).count op = 1) :=
  ⟨eoa_created ch cbM cb op out addrs utxos created,
   eoa_lookup_mem ch cbM cb op out addrs utxos created (by omega),
   eoa_count ch cbM cb op out addrs utxos created (by omega)⟩

/-- Witness for claim C10: an output matching both owned addresses yields
the outpoint twice in the created list and a single stored record. -/
theorem multi_address_match_w :
    (evalOutputsAddrs 5 16 true (3, 0) matchOut matchAddrs [] []).2 =
      [] ++ List.replicate (matchCount matchAddrs matchOut.pkScript) (3, 0) ∧
    (∃ u, alLookup
        (evalOutputsAddrs 5 16 true (3, 0) matchOut matchAddrs [] []).1 (3, 0)
        = some u ∧
      u.keyIndex ∈
        (matchAddrs.filter
          (fun kv => bytesContains matchOut.pkScript kv.2)).map Prod.fst) ∧
    (((evalOutputsAddrs 5 16 true (3, 0) matchOut matchAddrs [] []).1.map
        Prod.fst).count (3, 0) = 1) :=
  multi_address_match 5 16 true (3, 0) matchOut matchAddrs [] [] (by decide)
